import Mathlib

/-!
# A verification development for golinkfinder (`main.go`)

This file gives a shallow embedding, in Lean 4, of the parts of
`main.go` that the specification talks about:

* the endpoint-extraction regular expression
  `(?i)(["'])(\/[a-zA-Z0-9_?%&=\/\-\#\.\(\)]+)(["'])` together with
  `regexp.FindAllStringSubmatch` (leftmost, non-overlapping matching);
* `fetchAndFindLinks` (request / transport / status / body-read error
  classification followed by extraction);
* the worker-pool pipeline (`jobs` channel, `worker` goroutines, the
  `results` channel and the consuming loop in `main`), embedded as a
  small-step transition system;
* the deduplicating accumulator `allFoundEndpoints` with its
  mutex-guarded check-then-insert critical section;
* the optional resolution of extracted endpoints against the source URL
  (`url.Parse` / `URL.ResolveReference` / `URL.String` from Go's
  `net/url`, modelled from the standard library's documented RFC 3986
  behaviour, since that library is external to this repository);
* input-source selection (`-u` / `-l` / stdin, `strings.TrimSpace`),
  and the phase structure of `main` (which fatal exits happen before or
  after the fetch pipeline).

Bodies and URLs are modelled as `List Char` / `String`; all definitions
are executable so that concrete runs can be checked by `decide`.
-/

/-! ## The extraction pattern

`endpointRegex` in `main.go` is
`(?i)(["'])(\/[a-zA-Z0-9_?%&=\/\-\#\.\(\)]+)(["'])`.
A match is: a quote character (either `"` or `'`), then the capture:
a `/` followed by one or more characters of the class
`[a-zA-Z0-9_?%&=/\-#.()]`, then again a quote character (either one;
Go's RE2 has no backreferences, so the closing quote is an independent
single-character alternative).  Under the `(?i)` flag Go applies
Unicode simple case folding to the character class
(`regexp/syntax.appendFoldedRange`), which beyond the already-present
`a-zA-Z` adds exactly two codepoints to it: U+212A KELVIN SIGN (the
fold of `k`/`K`) and U+017F LATIN SMALL LETTER LONG S (the fold of
`s`/`S`).  The quote characters, digits and symbols have no case
folds, so `(?i)` changes nothing else.
-/

/-- The single quote character `'` (codepoint 39). -/
def squoteChar : Char := Char.ofNat 39

/-- The two characters accepted by the `["']` bracket of `endpointRegex`. -/
def isQuoteChar (ch : Char) : Bool := ch = '"' || ch = squoteChar

/-- The character class `[a-zA-Z0-9_?%&=/\-#.()]` of `endpointRegex`
under the `(?i)` flag: Go's case folding of the class additionally
admits U+212A KELVIN SIGN and U+017F LATIN SMALL LETTER LONG S (the
simple case folds of `k` and `s`); no other codepoint is added. -/
def isPathChar (ch : Char) : Bool :=
  ('a' ≤ ch && ch ≤ 'z') || ('A' ≤ ch && ch ≤ 'Z') || ('0' ≤ ch && ch ≤ '9') ||
  ch = '_' || ch = '?' || ch = '%' || ch = '&' || ch = '=' || ch = '/' ||
  ch = '-' || ch = '#' || ch = '.' || ch = '(' || ch = ')' ||
  ch = Char.ofNat 0x212A || ch = Char.ofNat 0x17F

/-- One attempt of the regex engine at the current position: succeeds iff
the input starts with quote, `/`, a maximal nonempty run of class
characters, and then a quote.  Returns the inner capture (group 2 of
`endpointRegex`, i.e. `/` plus the run) and the input remaining after
the whole match.  Greedy `+` is deterministic here because the class is
disjoint from the quote characters. -/
def tryMatch : List Char → Option (List Char × List Char)
  | [] => none
  | q :: rest =>
    if isQuoteChar q then
      match rest with
      | [] => none
      | s :: rest2 =>
        if s = '/' then
          let run := rest2.takeWhile isPathChar
          if run.isEmpty then none
          else
            match rest2.drop run.length with
            | [] => none
            | c2 :: tail => if isQuoteChar c2 then some ('/' :: run, tail) else none
        else none
    else none

/-- Fuelled scan for all non-overlapping leftmost matches, as
`re.FindAllStringSubmatch(body, -1)` does: try a match at every
position from left to right; on success, emit the capture and resume
after the consumed match; on failure advance one character.  The fuel
only serves structural recursion; `extract` instantiates it with the
length of the input, which always suffices. -/
def scanFuel : Nat → List Char → List (List Char)
  | 0, _ => []
  | _ + 1, [] => []
  | n + 1, q :: rest =>
    match tryMatch (q :: rest) with
    | some (cap, tail) => cap :: scanFuel n tail
    | none => scanFuel n rest

/-- The extractor of `fetchAndFindLinks` (`main.go` lines 75–82): the
list of group-2 captures of all non-overlapping matches of
`endpointRegex`, in order of appearance in the body.  (The
`len(match) > 1` guard in the Go loop is always true: every submatch
slice of this pattern has length 4.) -/
def extract (body : List Char) : List (List Char) :=
  scanFuel body.length body

/-- Position-annotated variant of `scanFuel`: also records the index in
the original body at which each capture starts (the character right
after the opening quote).  `i` is the absolute index of the head of the
current suffix. -/
def scanPosFuel : Nat → Nat → List Char → List (Nat × List Char)
  | 0, _, _ => []
  | _ + 1, _, [] => []
  | n + 1, i, q :: rest =>
    match tryMatch (q :: rest) with
    | some (cap, tail) => (i + 1, cap) :: scanPosFuel n (i + cap.length + 2) tail
    | none => scanPosFuel n (i + 1) rest

/-- All matches of `endpointRegex` with the body index of each capture. -/
def scanPositions (body : List Char) : List (Nat × List Char) :=
  scanPosFuel body.length 0 body

/-! ## Strings as character lists, Go `strings.TrimSpace` -/

/-- Go's `unicode.IsSpace` (the Unicode `White_Space` property): the
characters trimmed by `strings.TrimSpace`. -/
def isGoSpace (ch : Char) : Bool :=
  ch = ' ' || ch = '\t' || ch = '\n' || ch = Char.ofNat 0x0B ||
  ch = Char.ofNat 0x0C || ch = '\r' || ch = Char.ofNat 0x85 ||
  ch = Char.ofNat 0xA0 || ch = Char.ofNat 0x1680 ||
  (Char.ofNat 0x2000 ≤ ch && ch ≤ Char.ofNat 0x200A) ||
  ch = Char.ofNat 0x2028 || ch = Char.ofNat 0x2029 ||
  ch = Char.ofNat 0x202F || ch = Char.ofNat 0x205F || ch = Char.ofNat 0x3000

/-- Drop trailing whitespace (the right half of `strings.TrimSpace`). -/
def dropTrailingSpaces : List Char → List Char
  | [] => []
  | ch :: rest =>
    let r := dropTrailingSpaces rest
    if r.isEmpty && isGoSpace ch then [] else ch :: r

/-- Go `strings.TrimSpace` on a character list. -/
def trimList (l : List Char) : List Char :=
  dropTrailingSpaces (l.dropWhile isGoSpace)

/-- Go `strings.TrimSpace` on a `String`. -/
def trimString (s : String) : String := String.mk (trimList s.data)

/-! ## Go `net/url`: `Parse`, `ResolveReference`, `String`

Modelled from the Go standard library `net/url` (external to this
repository), following its documented RFC 3986 behaviour: scheme
detection with lowercasing, fragment/query splitting, authority
parsing, rootless-path URLs kept opaque, control characters and invalid
percent-escapes in the path rejected, and reference resolution with
dot-segment removal (`resolvePath`).  Simplifications (noted where
relevant): the authority is kept verbatim as `host` (no
userinfo/host-validity checking), percent-escapes are kept raw rather
than decoded (so serialization returns them verbatim, as Go does when
`RawPath` is a valid encoding), and `ForceQuery` and the `./`
path-prefix special case of `URL.String` are not modelled. -/

/-- A parsed URL, after Go `url.Parse`.  `opq` plays the role of
`URL.Opaque` (rootless scheme-ful URLs); `omitHost` mirrors
`URL.OmitHost` (`scheme:/path` with no `//`). -/
structure GoURL where
  scheme : List Char
  opq : List Char
  host : List Char
  omitHost : Bool
  path : List Char
  query : List Char
  fragment : List Char
deriving DecidableEq, Repr

/-- Characters allowed in a scheme after the first (which must be a
letter): digits, `+`, `-`, `.`. -/
def isSchemeExtraChar (ch : Char) : Bool :=
  ch.isDigit || ch = '+' || ch = '-' || ch = '.'

/-- Go `net/url.getScheme` followed by the lowercasing done by `parse`:
returns `(scheme, rest)` where `scheme = []` means "no scheme, `rest`
is the whole input"; `none` is the `missing protocol scheme` error for
an input beginning with `:`. -/
def getSchemeAux (orig : List Char) (acc : List Char) : List Char → Option (List Char × List Char)
  | [] => some ([], orig)
  | ch :: rest =>
    if ch.isAlpha then getSchemeAux orig (acc ++ [ch]) rest
    else if ch = ':' then
      if acc.isEmpty then none else some (acc.map Char.toLower, rest)
    else if isSchemeExtraChar ch then
      if acc.isEmpty then some ([], orig) else getSchemeAux orig (acc ++ [ch]) rest
    else some ([], orig)

/-- `strings.Cut` at the first occurrence of `target`: `none` when the
character does not occur. -/
def cutAtChar (target : Char) : List Char → Option (List Char × List Char)
  | [] => none
  | ch :: rest =>
    if ch = target then some ([], rest)
    else
      match cutAtChar target rest with
      | none => none
      | some (pre, post) => some (ch :: pre, post)

/-- A hexadecimal digit (Go `ishex`). -/
def isHexChar (ch : Char) : Bool :=
  ch.isDigit || ('a' ≤ ch && ch ≤ 'f') || ('A' ≤ ch && ch ≤ 'F')

/-- Is every `%` in the list followed by two hexadecimal digits?
(Go's `unescape` check, which makes `url.Parse` fail on e.g. `%zz`.) -/
def validEscapes : List Char → Bool
  | [] => true
  | ch :: rest =>
    if ch = '%' then
      match rest with
      | a :: b :: rest2 => isHexChar a && isHexChar b && validEscapes rest2
      | _ => false
    else validEscapes rest

/-- Go `url.Parse` (modelled; `none` is a parse error).  Fails on
control characters, on a leading `:`, on a colon in the first path
segment of a scheme-less URL, and on invalid percent-escapes in path or
fragment. -/
def parseURL (s : List Char) : Option GoURL :=
  if s.any (fun ch => ch.toNat < 0x20 || ch.toNat = 0x7F) then none
  else
    let fragCut := cutAtChar '#' s
    let beforeFrag := match fragCut with | none => s | some (pre, _) => pre
    let fragment : List Char := match fragCut with | none => [] | some (_, post) => post
    if ¬ validEscapes fragment then none
    else
      match getSchemeAux beforeFrag [] beforeFrag with
      | none => none
      | some (scheme, rest0) =>
        let queryCut := cutAtChar '?' rest0
        let rest1 := match queryCut with | none => rest0 | some (pre, _) => pre
        let query : List Char := match queryCut with | none => [] | some (_, post) => post
        if rest1.head? ≠ some '/' ∧ ¬ scheme.isEmpty then
          some ⟨scheme, rest1, [], false, [], query, fragment⟩
        else if rest1.head? ≠ some '/' ∧ scheme.isEmpty ∧
            (rest1.takeWhile (fun ch => ch ≠ '/')).any (fun ch => ch = ':') then
          none
        else
          match rest1 with
          | '/' :: '/' :: afterSlashes =>
            if ¬ scheme.isEmpty ∨ afterSlashes.head? ≠ some '/' then
              let authority := afterSlashes.takeWhile (fun ch => ch ≠ '/')
              let path := afterSlashes.dropWhile (fun ch => ch ≠ '/')
              if validEscapes path then
                some ⟨scheme, [], authority, false, path, query, fragment⟩
              else none
            else
              if validEscapes rest1 then
                some ⟨scheme, [], [], false, rest1, query, fragment⟩
              else none
          | _ =>
            if validEscapes rest1 then
              some ⟨scheme, [], [], ¬ scheme.isEmpty ∧ rest1.head? = some '/', rest1, query, fragment⟩
            else none

/-- Split a path at every `/` (`strings.Cut` loop of Go's
`resolvePath`); never returns `[]`. -/
def splitSlash : List Char → List (List Char)
  | [] => [[]]
  | ch :: rest =>
    if ch = '/' then [] :: splitSlash rest
    else
      match splitSlash rest with
      | [] => [[ch]]
      | s :: ss => (ch :: s) :: ss

/-- One step of dot-segment removal: `.` is dropped, `..` pops the last
segment, anything else is appended. -/
def dotStep (stack : List (List Char)) (seg : List Char) : List (List Char) :=
  if seg = ['.'] then stack
  else if seg = ['.', '.'] then stack.dropLast
  else stack ++ [seg]

/-- Join segments with `/`. -/
def joinSlash : List (List Char) → List Char
  | [] => []
  | [s] => s
  | s :: ss => s ++ '/' :: joinSlash ss

/-- RFC 3986 dot-segment removal exactly as Go's `resolvePath` performs
it on the merged path: process segments through `dotStep`, keep a
trailing slash when the final segment was `.` or `..`, always produce a
leading `/` (collapsing the doubled one produced by an absolute
input). -/
def removeDotSegments (full : List Char) : List Char :=
  if full.isEmpty then []
  else
    let segs := splitSlash full
    let stack := segs.foldl dotStep []
    let r0 := '/' :: joinSlash stack
    let r1 :=
      if segs.getLast? = some ['.'] ∨ segs.getLast? = some ['.', '.'] then r0 ++ ['/']
      else r0
    match r1 with
    | '/' :: '/' :: r => '/' :: r
    | r => r

/-- The prefix of `base` up to and including its last `/` (empty when
`base` has no slash): `base[:strings.LastIndex(base, "/")+1]`. -/
def upToLastSlash : List Char → List Char
  | [] => []
  | ch :: rest =>
    if rest.any (fun x => x = '/') then ch :: upToLastSlash rest
    else if ch = '/' then ['/'] else []

/-- Go `net/url.resolvePath base ref`: merge `ref` with `base` (an
empty `ref` keeps `base`, an absolute `ref` replaces it, a relative one
is appended after `base`'s last slash), then remove dot segments. -/
def resolvePath (base ref : List Char) : List Char :=
  let full :=
    if ref.isEmpty then base
    else if ref.head? = some '/' then ref
    else upToLastSlash base ++ ref
  removeDotSegments full

/-- Go `URL.ResolveReference` (modelled, no userinfo): an absolute (or
host-carrying) reference keeps all its own components, with only its
path put through dot-segment removal; an opaque reference drops
host/path; otherwise the reference is resolved against the base. -/
def resolveReference (u ref : GoURL) : GoURL :=
  let url0 := if ref.scheme.isEmpty then { ref with scheme := u.scheme } else ref
  if ¬ ref.scheme.isEmpty ∨ ¬ ref.host.isEmpty then
    { url0 with path := resolvePath ref.path [] }
  else if ¬ ref.opq.isEmpty then
    { url0 with host := [], path := [] }
  else
    let url1 := { url0 with host := u.host, path := resolvePath u.path ref.path }
    if ref.path.isEmpty ∧ ref.query.isEmpty then
      if ref.fragment.isEmpty then
        { url1 with query := u.query, fragment := u.fragment }
      else { url1 with query := u.query }
    else url1

/-- Go `URL.String` (modelled): `scheme:`, then the opaque part or
`//host` (omitted in the `OmitHost` case) and the path, then `?query`
and `#fragment` when nonempty. -/
def urlToString (u : GoURL) : List Char :=
  let schemePart := if u.scheme.isEmpty then [] else u.scheme ++ [':']
  let mainPart :=
    if ¬ u.opq.isEmpty then u.opq
    else
      let auth :=
        if ¬ u.scheme.isEmpty ∨ ¬ u.host.isEmpty then
          if u.omitHost ∧ u.host.isEmpty then []
          else '/' :: '/' :: u.host
        else []
      let slash :=
        if ¬ u.path.isEmpty ∧ u.path.head? ≠ some '/' ∧ ¬ u.host.isEmpty then ['/']
        else []
      auth ++ slash ++ u.path
  let queryPart := if u.query.isEmpty then [] else '?' :: u.query
  let fragPart := if u.fragment.isEmpty then [] else '#' :: u.fragment
  schemePart ++ mainPart ++ queryPart ++ fragPart

/-- The per-endpoint resolution step of the aggregator (`main.go` lines
193–201): with `-r` set, parse the source URL (`url.Parse` result used
only when non-nil) and the extracted link; if both parse, insert the
serialized resolved reference, otherwise fall back to the raw extracted
string. -/
def finalLinkOf (resolve : Bool) (sourceURL link : String) : String :=
  if resolve then
    match parseURL sourceURL.data with
    | none => link
    | some base =>
      match parseURL link.data with
      | none => link
      | some rel => String.mk (urlToString (resolveReference base rel))
  else link

/-! ## `fetchAndFindLinks` -/

/-- The environment's view of the HTTP layer for one URL: the request
construction may fail, `client.Do` may fail, or a response arrives with
a status code, a body, and a flag telling whether reading the body
succeeds.  This is the input on which `fetchAndFindLinks` branches. -/
inductive HTTPEvent
  | reqFail
  | doFail
  | resp (status : Nat) (bodyOk : Bool) (body : List Char)
deriving DecidableEq

/-- The four error classes of `fetchAndFindLinks` (`main.go` lines
54–73), in the order the code can produce them. -/
inductive FetchError
  | reqError
  | httpError
  | badStatus (code : Nat)
  | readError
deriving DecidableEq

/-- `fetchAndFindLinks` (`main.go` lines 53–83): classify the failure,
or run the extractor over the body.  `200` is `http.StatusOK`. -/
def fetchAndFindLinks : HTTPEvent → Except FetchError (List (List Char))
  | .reqFail => .error .reqError
  | .doFail => .error .httpError
  | .resp status bodyOk body =>
    if status ≠ 200 then .error (.badStatus status)
    else if ¬ bodyOk then .error .readError
    else .ok (extract body)

/-- The endpoint strings one `linkFinderResult` contributes to the
accumulator: none on an error result, otherwise each extracted string
after the optional resolution step (`main.go` lines 181–201). -/
def endpointsOfEvent (resolve : Bool) (u : String) (ev : HTTPEvent) : List String :=
  match fetchAndFindLinks ev with
  | .error _ => []
  | .ok eps => eps.map (fun e => finalLinkOf resolve u (String.mk e))

/-- `endpointsOfEvent` under a fixed deterministic HTTP environment. -/
def endpointsOfResult (resolve : Bool) (http : String → HTTPEvent) (u : String) : List String :=
  endpointsOfEvent resolve u (http u)

/-! ## The deduplicating accumulator

`allFoundEndpoints` is a `map[string]struct{}` guarded by
`finalEndpointsLock`; `main.go` lines 203–210 hold the lock across the
membership check, the insertion and the incremental "new endpoint"
print, so the whole check-then-insert is one critical section and is
modelled as one atomic step.  `keys` is the key set of the map (in
first-insertion order, which the map does not observe — the final
output is sorted); `notified` is the list of endpoints for which the
incremental line was printed (in non-quiet mode). -/
structure AggState where
  keys : List String
  notified : List String
deriving DecidableEq

/-- The critical section of `main.go` lines 203–210: if the endpoint is
already a key, nothing happens; otherwise it is inserted and notified
once. -/
def insertEndpoint (st : AggState) (e : String) : AggState :=
  if e ∈ st.keys then st else ⟨st.keys ++ [e], st.notified ++ [e]⟩

/-- Insert every endpoint of one result, left to right. -/
def insertAll (st : AggState) (es : List String) : AggState :=
  es.foldl insertEndpoint st

/-- The accumulator state after the consuming loop has processed the
results of `order` (the source URLs in consumption order). -/
def aggregateFrom (resolve : Bool) (http : String → HTTPEvent) (order : List String) : AggState :=
  order.foldl (fun st u => insertAll st (endpointsOfResult resolve http u)) ⟨[], []⟩

/-! ## Sorting (`sort.Strings`) -/

/-- Byte/code-point lexicographic comparison of strings, as
`sort.Strings` orders them (UTF-8 byte order agrees with code-point
order). -/
def charListLe : List Char → List Char → Bool
  | [], _ => true
  | _ :: _, [] => false
  | a :: as, b :: bs =>
    if a.toNat < b.toNat then true
    else if b.toNat < a.toNat then false
    else charListLe as bs

/-- `charListLe` on `String`, as a proposition. -/
def strLe (a b : String) : Prop := charListLe a.data b.data = true

instance : DecidableRel strLe :=
  fun a b => inferInstanceAs (Decidable (charListLe a.data b.data = true))

/-- `sort.Strings` (`main.go` line 222). -/
def goSortStrings (l : List String) : List String :=
  List.insertionSort strLe l

/-- The final sorted unique endpoint list handed to the output code
(`main.go` lines 218–222), as a function of the order in which the
consuming loop received the per-URL results. -/
def finalOutput (resolve : Bool) (http : String → HTTPEvent) (order : List String) : List String :=
  goSortStrings (aggregateFrom resolve http order).keys

/-! ## The worker pool as a transition system

`main.go` spawns `threads` workers over a `jobs` channel that is
pre-filled with every URL and closed (both channels are buffered to
`len(urlsToScan)`, so no send blocks), and a `results` channel consumed
exactly `len(urlsToScan)` times.  A worker repeatedly takes a job and
then emits exactly one result for it (`worker`, lines 85–91).  Because
the fetch outcome of a URL is a deterministic function of the
environment, a result is identified by its source URL. -/
structure PoolState where
  queue : List String
  workers : List (Option String)
  chan : List String
  consumed : List String
deriving DecidableEq

/-- The pipeline state right after the jobs have been enqueued: the
queue holds every input URL, all `threads` workers are idle, no result
has been sent or consumed. -/
def initPool (urls : List String) (threads : Nat) : PoolState :=
  ⟨urls, List.replicate threads none, [], []⟩

/-- One scheduler step of the pipeline: an idle worker takes the next
job from the queue; a worker holding a job sends its one result and
becomes idle; the consuming loop in `main` receives the oldest result.
Channels are FIFO; the interleaving is otherwise arbitrary. -/
inductive PoolStep : PoolState → PoolState → Prop
  | takeJob (s : PoolState) (w : Nat) (u : String) (q : List String) :
      s.workers[w]? = some none → s.queue = u :: q →
      PoolStep s ⟨q, s.workers.set w (some u), s.chan, s.consumed⟩
  | emit (s : PoolState) (w : Nat) (u : String) :
      s.workers[w]? = some (some u) →
      PoolStep s ⟨s.queue, s.workers.set w none, s.chan ++ [u], s.consumed⟩
  | consume (s : PoolState) (u : String) (c : List String) :
      s.chan = u :: c →
      PoolStep s ⟨s.queue, s.workers, c, s.consumed ++ [u]⟩

/-- States the pipeline can be in, starting from `initPool`. -/
def PoolReachable (urls : List String) (threads : Nat) (s : PoolState) : Prop :=
  Relation.ReflTransGen PoolStep (initPool urls threads) s

/-- The jobs currently held by workers. -/
def PoolState.inFlight (s : PoolState) : List String :=
  s.workers.filterMap id

/-- The pipeline has fully drained: no queued job, no job in flight, no
unconsumed result.  (This is the situation after `wg.Wait()` and the
consuming loop have both finished.) -/
def PoolDone (s : PoolState) : Prop :=
  s.queue = [] ∧ s.inFlight = [] ∧ s.chan = []

/-- All jobs present anywhere in the pipeline: still queued, held by a
worker, sent but unconsumed, or consumed.  Every `PoolStep` preserves
this list up to permutation. -/
def poolContents (s : PoolState) : List String :=
  s.queue ++ s.inFlight ++ s.chan ++ s.consumed

/-! ## `main`: input selection and phase structure -/

/-- The command-line flags of `main.go` (lines 104–111). -/
structure Config where
  targetURL : String
  urlList : String
  outputFile : String
  threads : Nat
  resolve : Bool
  quiet : Bool
  noColor : Bool

/-- The process environment `main` interacts with: the contents of
readable files (`none` = `os.Open` fails), whether stdin is piped and
its lines, the HTTP outcome per URL, and whether `os.Create` succeeds
on a path. -/
structure Env where
  fileLines : String → Option (List String)
  stdinPiped : Bool
  stdinLines : List String
  http : String → HTTPEvent
  canCreate : String → Bool

/-- The per-line treatment of the `-l` file and of stdin (`main.go`
lines 126–130 and 134–139): each line is `strings.TrimSpace`d and kept
only if nonempty. -/
def cleanLines (ls : List String) : List String :=
  ls.filterMap (fun l =>
    let t := trimString l
    if t = "" then none else some t)

/-- Input-source selection (`main.go` lines 115–141): a non-empty `-u`
wins and is taken verbatim; otherwise a non-empty `-l` names a file
(`none` = the fatal open error, line 122); otherwise stdin is read only
when piped.  The returned list may be empty (leading to the
no-input fatal error, line 147). -/
def selectURLs (cfg : Config) (env : Env) : Option (List String) :=
  if cfg.targetURL ≠ "" then some [cfg.targetURL]
  else if cfg.urlList ≠ "" then
    match env.fileLines cfg.urlList with
    | none => none
    | some ls => some (cleanLines ls)
  else if env.stdinPiped then some (cleanLines env.stdinLines)
  else some []

/-- The externally observable phase events of one run of `main`: fetch
jobs being executed and the final `os.Exit`/return code. -/
inductive Event
  | fetchJob (u : String)
  | exitProc (code : Nat)
deriving DecidableEq

/-- The phase structure of `main` as an event trace: the two input
fatal errors (`os.Exit(1)` at lines 122 and 147) happen before any
fetch; otherwise every selected URL is fetched by the pipeline, and
only afterwards (line 234) is the output file created, whose failure is
the `os.Exit(1)` at line 238; a run that gets past that returns with
status 0. -/
def runTrace (cfg : Config) (env : Env) : List Event :=
  match selectURLs cfg env with
  | none => [.exitProc 1]
  | some urls =>
    if urls.isEmpty then [.exitProc 1]
    else
      urls.map Event.fetchJob ++
        (if cfg.outputFile ≠ "" ∧ ¬ env.canCreate cfg.outputFile then [.exitProc 1]
         else [.exitProc 0])

/-- The trace contains a nonzero exit. -/
def exitsNonzero (tr : List Event) : Prop :=
  ∃ n, n ≠ 0 ∧ Event.exitProc n ∈ tr

/-- The trace contains at least one executed fetch job. -/
def hasFetchEvent (tr : List Event) : Prop :=
  ∃ u, Event.fetchJob u ∈ tr

/-! ## Lemmas about the extractor -/

theorem quote_not_pathChar {ch : Char} (h : isQuoteChar ch = true) :
    isPathChar ch = false := by
  simp only [isQuoteChar, Bool.or_eq_true, decide_eq_true_eq] at h
  rcases h with h | h <;> subst h <;> decide

theorem pathChar_not_quote {ch : Char} (h : isPathChar ch = true) :
    isQuoteChar ch = false := by
  cases hq : isQuoteChar ch
  · rfl
  · rw [quote_not_pathChar hq] at h
    cases h

theorem drop_takeWhile_length (p : Char → Bool) (l : List Char) :
    l.drop (l.takeWhile p).length = l.dropWhile p := by
  induction l with
  | nil => rfl
  | cons a l ih =>
    by_cases h : p a
    · simp [List.takeWhile_cons, List.dropWhile_cons, h, ih]
    · simp [List.takeWhile_cons, List.dropWhile_cons, h]

theorem tryMatch_eq_some {l cap tail : List Char}
    (h : tryMatch l = some (cap, tail)) :
    ∃ q run c2, isQuoteChar q = true ∧ isQuoteChar c2 = true ∧ run ≠ [] ∧
      (∀ ch ∈ run, isPathChar ch = true) ∧ cap = '/' :: run ∧
      l = q :: '/' :: (run ++ c2 :: tail) := by
  match l with
  | [] => simp [tryMatch] at h
  | q :: rest =>
    rw [tryMatch.eq_def] at h
    simp only at h
    by_cases hq : isQuoteChar q
    · rw [if_pos hq] at h
      match rest with
      | [] => simp at h
      | s :: rest2 =>
        dsimp only at h
        by_cases hs : s = '/'
        · subst hs
          rw [if_pos rfl] at h
          by_cases he : (rest2.takeWhile isPathChar).isEmpty
          · rw [if_pos he] at h
            cases h
          · rw [if_neg he] at h
            cases hdrop : rest2.drop (rest2.takeWhile isPathChar).length with
            | nil => rw [hdrop] at h; cases h
            | cons c2 tl =>
              rw [hdrop] at h
              dsimp only at h
              by_cases hc2 : isQuoteChar c2
              · rw [if_pos hc2] at h
                injection h with h
                injection h with hcap htail
                subst htail
                refine ⟨q, rest2.takeWhile isPathChar, c2, hq, hc2, ?_, ?_, hcap.symm, ?_⟩
                · intro hnil
                  rw [hnil] at he
                  exact he rfl
                · intro ch hch
                  exact List.mem_takeWhile_imp hch
                · have hsplit := List.takeWhile_append_dropWhile (p := isPathChar) (l := rest2)
                  rw [← drop_takeWhile_length isPathChar rest2, hdrop] at hsplit
                  rw [hsplit]
              · rw [if_neg hc2] at h
                cases h
        · rw [if_neg hs] at h
          cases h
    · rw [if_neg hq] at h
      cases h

theorem takeWhile_of_all_append {run tail : List Char} {c2 : Char}
    (hc : isQuoteChar c2 = true) (hall : ∀ ch ∈ run, isPathChar ch = true) :
    (run ++ c2 :: tail).takeWhile isPathChar = run := by
  induction run with
  | nil => simp [List.takeWhile_cons, quote_not_pathChar hc]
  | cons a as ih =>
    have ha : isPathChar a = true := hall a (by simp)
    simp only [List.cons_append, List.takeWhile_cons, ha, if_true]
    rw [ih (fun ch hch => hall ch (by simp [hch]))]

theorem tryMatch_of_parts {q c2 : Char} {run tail : List Char}
    (hq : isQuoteChar q = true) (hc : isQuoteChar c2 = true) (hr : run ≠ [])
    (hall : ∀ ch ∈ run, isPathChar ch = true) :
    tryMatch (q :: '/' :: (run ++ c2 :: tail)) = some ('/' :: run, tail) := by
  have htw := @takeWhile_of_all_append run tail c2 hc hall
  have hne : run.isEmpty = false := by
    cases run with
    | nil => exact absurd rfl hr
    | cons a as => rfl
  rw [tryMatch.eq_def]
  simp only [htw, hne, if_pos hq, if_pos rfl, Bool.false_eq_true, if_false,
    List.drop_left, if_pos hc, if_true]

theorem tryMatch_some_length {l cap tail : List Char}
    (h : tryMatch l = some (cap, tail)) :
    l.length = cap.length + tail.length + 2 := by
  obtain ⟨q, run, c2, _, _, _, _, hcap, hl⟩ := tryMatch_eq_some h
  subst hcap hl
  simp [List.length_append]
  omega

theorem scanFuel_congr :
    ∀ (n m : Nat) (l : List Char), l.length ≤ n → l.length ≤ m →
      scanFuel n l = scanFuel m l := by
  intro n
  induction n with
  | zero =>
    intro m l hn _
    have : l = [] := List.eq_nil_of_length_eq_zero (Nat.le_zero.mp hn)
    subst this
    cases m <;> rfl
  | succ n ih =>
    intro m l hn hm
    match l with
    | [] => cases m <;> rfl
    | q :: rest =>
      match m with
      | 0 => simp at hm
      | m + 1 =>
        simp only [List.length_cons] at hn hm
        cases htm : tryMatch (q :: rest) with
        | none =>
          rw [scanFuel, scanFuel, htm]
          exact ih m rest (by omega) (by omega)
        | some pr =>
          obtain ⟨cap, tail⟩ := pr
          have hlen := tryMatch_some_length htm
          simp only [List.length_cons] at hlen
          rw [scanFuel, scanFuel, htm]
          dsimp only
          rw [ih m tail (by omega) (by omega)]

theorem extract_cons_some {q : Char} {rest cap tail : List Char}
    (h : tryMatch (q :: rest) = some (cap, tail)) :
    extract (q :: rest) = cap :: extract tail := by
  have hlen := tryMatch_some_length h
  simp only [List.length_cons] at hlen
  show scanFuel (q :: rest).length (q :: rest) = _
  rw [List.length_cons, scanFuel, h]
  dsimp only
  rw [scanFuel_congr rest.length tail.length tail (by omega) (by omega)]
  rfl

theorem extract_cons_none {q : Char} {rest : List Char}
    (h : tryMatch (q :: rest) = none) :
    extract (q :: rest) = extract rest := by
  show scanFuel (q :: rest).length (q :: rest) = _
  rw [List.length_cons, scanFuel, h]
  rfl

theorem scanFuel_clean :
    ∀ (n : Nat) (l cap : List Char), cap ∈ scanFuel n l →
      cap.head? = some '/' ∧ ∀ ch ∈ cap, isQuoteChar ch = false := by
  intro n
  induction n with
  | zero => intro l cap h; cases h
  | succ n ih =>
    intro l cap h
    match l with
    | [] => cases h
    | q :: rest =>
      rw [scanFuel] at h
      cases htm : tryMatch (q :: rest) with
      | none =>
        rw [htm] at h
        exact ih rest cap h
      | some pr =>
        obtain ⟨c, t⟩ := pr
        rw [htm] at h
        rcases List.mem_cons.mp h with hc | hmem
        · subst hc
          obtain ⟨_, run, _, _, _, _, hall, hcap, _⟩ := tryMatch_eq_some htm
          subst hcap
          refine ⟨rfl, ?_⟩
          intro ch hch
          rcases List.mem_cons.mp hch with hs | hrun
          · subst hs; decide
          · exact pathChar_not_quote (hall ch hrun)
        · exact ih t cap hmem

theorem scanPosFuel_map_snd :
    ∀ (n : Nat) (i : Nat) (l : List Char),
      (scanPosFuel n i l).map Prod.snd = scanFuel n l := by
  intro n
  induction n with
  | zero => intro i l; rfl
  | succ n ih =>
    intro i l
    match l with
    | [] => rfl
    | q :: rest =>
      rw [scanPosFuel, scanFuel]
      cases htm : tryMatch (q :: rest) with
      | none => exact ih (i + 1) rest
      | some pr =>
        obtain ⟨cap, tail⟩ := pr
        dsimp only
        rw [List.map_cons, ih (i + cap.length + 2) tail]

theorem scanPosFuel_occurs :
    ∀ (n : Nat) (i : Nat) (l : List Char) (p : Nat × List Char),
      p ∈ scanPosFuel n i l →
        i < p.1 ∧ (l.drop (p.1 - i)).take p.2.length = p.2 := by
  intro n
  induction n with
  | zero => intro i l p h; cases h
  | succ n ih =>
    intro i l p h
    match l with
    | [] => cases h
    | q :: rest =>
      rw [scanPosFuel] at h
      cases htm : tryMatch (q :: rest) with
      | none =>
        rw [htm] at h
        obtain ⟨h1, h2⟩ := ih (i + 1) rest p h
        refine ⟨by omega, ?_⟩
        have : p.1 - i = (p.1 - (i + 1)) + 1 := by omega
        rw [this, List.drop_succ_cons]
        exact h2
      | some pr =>
        obtain ⟨cap, tail⟩ := pr
        rw [htm] at h
        obtain ⟨q', run, c2, _, _, _, _, hcap, hl⟩ := tryMatch_eq_some htm
        rcases List.mem_cons.mp h with hp | hmem
        · subst hp
          refine ⟨by omega, ?_⟩
          dsimp only
          have h1 : i + 1 - i = 1 := by omega
          have hrest : rest = '/' :: (run ++ c2 :: tail) := by
            have := congrArg List.tail hl
            simpa using this
          rw [h1, List.drop_succ_cons, List.drop_zero, hrest, hcap]
          simp only [List.length_cons, List.take_succ_cons, List.take_left]
        · obtain ⟨h1, h2⟩ := ih (i + cap.length + 2) tail p hmem
          refine ⟨by omega, ?_⟩
          have hsplit : q :: rest = (q' :: '/' :: (run ++ [c2])) ++ tail := by
            rw [hl]
            simp
          have hlen2 : (q' :: '/' :: (run ++ [c2])).length = cap.length + 2 := by
            rw [hcap]
            simp [List.length_append]
          have hdropA :
              List.drop (cap.length + 2) ((q' :: '/' :: (run ++ [c2])) ++ tail) = tail := by
            rw [← hlen2]
            exact List.drop_left _ _
          have harith : p.1 - i = (cap.length + 2) + (p.1 - (i + cap.length + 2)) := by
            omega
          rw [hsplit, harith, ← List.drop_drop, hdropA]
          exact h2

theorem scanPosFuel_chain :
    ∀ (n : Nat) (i : Nat) (l : List Char),
      List.Chain' (fun a b : Nat × List Char => a.1 < b.1) (scanPosFuel n i l) := by
  intro n
  induction n with
  | zero => intro i l; exact List.chain'_nil
  | succ n ih =>
    intro i l
    match l with
    | [] => exact List.chain'_nil
    | q :: rest =>
      rw [scanPosFuel]
      cases htm : tryMatch (q :: rest) with
      | none => exact ih (i + 1) rest
      | some pr =>
        obtain ⟨cap, tail⟩ := pr
        dsimp only
        rw [List.chain'_cons']
        refine ⟨?_, ih (i + cap.length + 2) tail⟩
        intro y hy
        have hmem : y ∈ scanPosFuel n (i + cap.length + 2) tail :=
          List.mem_of_mem_head? hy
        have := (scanPosFuel_occurs n (i + cap.length + 2) tail y hmem).1
        simp only
        omega

/-! ## Lemmas about the worker pool -/

theorem filterMap_id_replicate_none (T : Nat) :
    (List.replicate T (none : Option String)).filterMap id = [] := by
  induction T with
  | zero => rfl
  | succ T ih => simp [List.replicate_succ, List.filterMap_cons, ih]

theorem filterMap_set_some :
    ∀ (ws : List (Option String)) (w : Nat) (u : String), ws[w]? = some none →
      ((ws.set w (some u)).filterMap id).Perm (u :: ws.filterMap id) := by
  intro ws
  induction ws with
  | nil => intro w u h; simp at h
  | cons a ws ih =>
    intro w u h
    match w with
    | 0 =>
      simp only [List.getElem?_cons_zero, Option.some.injEq] at h
      subst h
      simp only [List.set_cons_zero, List.filterMap_cons, id]
      exact List.Perm.refl _
    | w + 1 =>
      simp only [List.getElem?_cons_succ] at h
      simp only [List.set_cons_succ, List.filterMap_cons]
      cases a with
      | none => simpa using ih w u h
      | some v =>
        simp only [id]
        exact (List.Perm.cons v (ih w u h)).trans (List.Perm.swap u v _)

theorem filterMap_set_none :
    ∀ (ws : List (Option String)) (w : Nat) (u : String), ws[w]? = some (some u) →
      (u :: (ws.set w none).filterMap id).Perm (ws.filterMap id) := by
  intro ws
  induction ws with
  | nil => intro w u h; simp at h
  | cons a ws ih =>
    intro w u h
    match w with
    | 0 =>
      simp only [List.getElem?_cons_zero, Option.some.injEq] at h
      subst h
      simp only [List.set_cons_zero, List.filterMap_cons, id]
      exact List.Perm.refl _
    | w + 1 =>
      simp only [List.getElem?_cons_succ] at h
      simp only [List.set_cons_succ, List.filterMap_cons]
      cases a with
      | none => simpa using ih w u h
      | some v =>
        simp only [id]
        exact (List.Perm.swap v u _).trans (List.Perm.cons v (ih w u h))

theorem poolStep_contents {s t : PoolState} (h : PoolStep s t) :
    (poolContents t).Perm (poolContents s) := by
  cases h with
  | takeJob w u q hw hq =>
    have hperm := filterMap_set_some s.workers w u hw
    rw [List.perm_iff_count]
    intro a
    have hp := hperm.count_eq a
    simp only [poolContents, PoolState.inFlight, hq, List.count_append,
      List.count_cons] at hp ⊢
    by_cases hua : u = a <;> simp [hua] at hp ⊢ <;> omega
  | emit w u hw =>
    have hperm := filterMap_set_none s.workers w u hw
    rw [List.perm_iff_count]
    intro a
    have hp := hperm.count_eq a
    simp only [poolContents, PoolState.inFlight, List.count_append,
      List.count_cons] at hp ⊢
    by_cases hua : u = a <;> simp [hua] at hp ⊢ <;> omega
  | consume u c hc =>
    rw [List.perm_iff_count]
    intro a
    simp only [poolContents, PoolState.inFlight, hc, List.count_append,
      List.count_cons]
    by_cases hua : u = a
    · simp [hua]
      omega
    · simp [hua]

theorem poolReachable_contents {urls : List String} {T : Nat} {s : PoolState}
    (h : PoolReachable urls T s) : (poolContents s).Perm urls := by
  induction h with
  | refl =>
    simp [poolContents, initPool, PoolState.inFlight, filterMap_id_replicate_none]
  | tail h1 h2 ih =>
    exact (poolStep_contents h2).trans ih

theorem poolDone_consumed_perm {urls : List String} {T : Nat} {s : PoolState}
    (h : PoolReachable urls T s) (hd : PoolDone s) : s.consumed.Perm urls := by
  have hc := poolReachable_contents h
  obtain ⟨h1, h2, h3⟩ := hd
  rw [poolContents, h1, h2, h3] at hc
  simpa using hc

theorem pool_exec_complete (T : Nat) :
    ∀ (pend done : List String),
      Relation.ReflTransGen PoolStep
        ⟨pend, List.replicate (T + 1) none, [], done⟩
        ⟨[], List.replicate (T + 1) none, [], done ++ pend⟩ := by
  intro pend
  induction pend with
  | nil =>
    intro done
    simpa using Relation.ReflTransGen.refl
  | cons u rest ih =>
    intro done
    have s1 : PoolStep ⟨u :: rest, List.replicate (T + 1) none, [], done⟩
        ⟨rest, (List.replicate (T + 1) none).set 0 (some u), [], done⟩ :=
      PoolStep.takeJob _ 0 u rest (by simp [List.replicate_succ]) rfl
    have s2 : PoolStep ⟨rest, (List.replicate (T + 1) none).set 0 (some u), [], done⟩
        ⟨rest, ((List.replicate (T + 1) none).set 0 (some u)).set 0 none, [u], done⟩ :=
      PoolStep.emit _ 0 u (by simp [List.replicate_succ])
    have s3 : PoolStep ⟨rest, ((List.replicate (T + 1) none).set 0 (some u)).set 0 none, [u], done⟩
        ⟨rest, ((List.replicate (T + 1) none).set 0 (some u)).set 0 none, [], done ++ [u]⟩ :=
      PoolStep.consume _ u [] rfl
    have hws : ((List.replicate (T + 1) none).set 0 (some u)).set 0 none =
        List.replicate (T + 1) (none : Option String) := by
      simp [List.replicate_succ]
    refine Relation.ReflTransGen.head s1 (Relation.ReflTransGen.head s2
      (Relation.ReflTransGen.head s3 ?_))
    rw [hws]
    have := ih (done ++ [u])
    simpa using this

theorem pool_complete_exists (urls : List String) (T : Nat) (hT : 1 ≤ T) :
    ∃ s, PoolReachable urls T s ∧ PoolDone s ∧ s.consumed = urls := by
  obtain ⟨T', rfl⟩ : ∃ T', T = T' + 1 := ⟨T - 1, by omega⟩
  refine ⟨⟨[], List.replicate (T' + 1) none, [], urls⟩, ?_, ⟨rfl, ?_, rfl⟩, rfl⟩
  · have := pool_exec_complete T' urls []
    simpa [PoolReachable, initPool] using this
  · simp [PoolState.inFlight, filterMap_id_replicate_none]

/-! ## Lemmas about the accumulator and the sorted output -/

theorem insertEndpoint_mem (st : AggState) (e x : String) :
    x ∈ (insertEndpoint st e).keys ↔ x ∈ st.keys ∨ x = e := by
  by_cases h : e ∈ st.keys
  · simp only [insertEndpoint, if_pos h]
    constructor
    · exact Or.inl
    · rintro (hx | rfl)
      · exact hx
      · exact h
  · simp only [insertEndpoint, if_neg h]
    simp [List.mem_append]

theorem insertEndpoint_nodup {st : AggState} (h : st.keys.Nodup) (e : String) :
    (insertEndpoint st e).keys.Nodup := by
  by_cases he : e ∈ st.keys
  · simpa [insertEndpoint, he] using h
  · simp [insertEndpoint, he, List.nodup_append, h]

theorem insertEndpoint_dup_noop {st : AggState} {e : String} (h : e ∈ st.keys) :
    insertEndpoint st e = st := by
  simp [insertEndpoint, h]

theorem insertEndpoint_notified_eq {st : AggState} (h : st.notified = st.keys) (e : String) :
    (insertEndpoint st e).notified = (insertEndpoint st e).keys := by
  by_cases he : e ∈ st.keys
  · simpa [insertEndpoint, he] using h
  · simp [insertEndpoint, he, h]

theorem insertAll_mem (es : List String) :
    ∀ (st : AggState) (x : String),
      x ∈ (insertAll st es).keys ↔ x ∈ st.keys ∨ x ∈ es := by
  induction es with
  | nil => intro st x; simp [insertAll]
  | cons e es ih =>
    intro st x
    have : insertAll st (e :: es) = insertAll (insertEndpoint st e) es := rfl
    rw [this, ih, insertEndpoint_mem]
    simp [List.mem_cons]
    tauto

theorem insertAll_nodup (es : List String) :
    ∀ {st : AggState}, st.keys.Nodup → (insertAll st es).keys.Nodup := by
  induction es with
  | nil => intro st h; exact h
  | cons e es ih =>
    intro st h
    exact ih (insertEndpoint_nodup h e)

theorem insertAll_notified_eq (es : List String) :
    ∀ {st : AggState}, st.notified = st.keys → (insertAll st es).notified = (insertAll st es).keys := by
  induction es with
  | nil => intro st h; exact h
  | cons e es ih =>
    intro st h
    exact ih (insertEndpoint_notified_eq h e)

theorem aggregateFrom_foldl_mem (resolve : Bool) (http : String → HTTPEvent)
    (order : List String) :
    ∀ (st : AggState) (x : String),
      x ∈ (order.foldl (fun st u => insertAll st (endpointsOfResult resolve http u)) st).keys ↔
        x ∈ st.keys ∨ ∃ u ∈ order, x ∈ endpointsOfResult resolve http u := by
  induction order with
  | nil => intro st x; simp
  | cons u order ih =>
    intro st x
    simp only [List.foldl_cons]
    rw [ih, insertAll_mem]
    constructor
    · rintro ((hx | hx) | ⟨v, hv, hxv⟩)
      · exact Or.inl hx
      · exact Or.inr ⟨u, List.mem_cons_self u order, hx⟩
      · exact Or.inr ⟨v, List.mem_cons_of_mem u hv, hxv⟩
    · rintro (hx | ⟨v, hv, hxv⟩)
      · exact Or.inl (Or.inl hx)
      · rcases List.mem_cons.mp hv with rfl | hv
        · exact Or.inl (Or.inr hxv)
        · exact Or.inr ⟨v, hv, hxv⟩

theorem aggregateFrom_mem (resolve : Bool) (http : String → HTTPEvent)
    (order : List String) (x : String) :
    x ∈ (aggregateFrom resolve http order).keys ↔
      ∃ u ∈ order, x ∈ endpointsOfResult resolve http u := by
  rw [aggregateFrom, aggregateFrom_foldl_mem]
  simp

theorem aggregateFrom_nodup (resolve : Bool) (http : String → HTTPEvent)
    (order : List String) : (aggregateFrom resolve http order).keys.Nodup := by
  rw [aggregateFrom]
  have : ∀ (st : AggState), st.keys.Nodup →
      (order.foldl (fun st u => insertAll st (endpointsOfResult resolve http u)) st).keys.Nodup := by
    induction order with
    | nil => intro st h; exact h
    | cons u order ih =>
      intro st h
      exact ih _ (insertAll_nodup _ h)
  exact this ⟨[], []⟩ List.nodup_nil

theorem aggregateFrom_perm (resolve : Bool) (http : String → HTTPEvent)
    {o1 o2 : List String} (h : o1.Perm o2) :
    ((aggregateFrom resolve http o1).keys).Perm ((aggregateFrom resolve http o2).keys) := by
  rw [List.perm_ext_iff_of_nodup (aggregateFrom_nodup resolve http o1)
    (aggregateFrom_nodup resolve http o2)]
  intro a
  rw [aggregateFrom_mem, aggregateFrom_mem]
  constructor
  · rintro ⟨u, hu, ha⟩
    exact ⟨u, h.mem_iff.mp hu, ha⟩
  · rintro ⟨u, hu, ha⟩
    exact ⟨u, h.mem_iff.mpr hu, ha⟩

theorem charListLe_refl : ∀ l : List Char, charListLe l l = true := by
  intro l
  induction l with
  | nil => rfl
  | cons a as ih => simp [charListLe, ih]

theorem charListLe_total : ∀ a b : List Char,
    charListLe a b = true ∨ charListLe b a = true := by
  intro a
  induction a with
  | nil => intro b; exact Or.inl rfl
  | cons x xs ih =>
    intro b
    cases b with
    | nil => exact Or.inr rfl
    | cons y ys =>
      by_cases h1 : x.toNat < y.toNat
      · exact Or.inl (by simp [charListLe, h1])
      · by_cases h2 : y.toNat < x.toNat
        · exact Or.inr (by simp [charListLe, h2])
        · rcases ih ys with h | h
          · exact Or.inl (by simp [charListLe, h1, h2, h])
          · exact Or.inr (by simp [charListLe, h1, h2, h])

theorem char_toNat_inj {a b : Char} (h : a.toNat = b.toNat) : a = b := by
  have := congrArg Char.ofNat h
  rwa [Char.ofNat_toNat, Char.ofNat_toNat] at this

theorem charListLe_antisymm : ∀ a b : List Char,
    charListLe a b = true → charListLe b a = true → a = b := by
  intro a
  induction a with
  | nil =>
    intro b _ h2
    cases b with
    | nil => rfl
    | cons y ys => simp [charListLe] at h2
  | cons x xs ih =>
    intro b h1 h2
    cases b with
    | nil => simp [charListLe] at h1
    | cons y ys =>
      by_cases hxy : x.toNat < y.toNat
      · simp [charListLe, hxy, Nat.lt_asymm hxy] at h2
      · by_cases hyx : y.toNat < x.toNat
        · simp [charListLe, hxy, hyx] at h1
        · have hx : x = y := char_toNat_inj (by omega)
          subst hx
          simp only [charListLe, hxy, if_false, if_neg hxy] at h1 h2
          rw [ih ys h1 h2]

theorem charListLe_trans : ∀ a b c : List Char,
    charListLe a b = true → charListLe b c = true → charListLe a c = true := by
  intro a
  induction a with
  | nil => intro b c _ _; rfl
  | cons x xs ih =>
    intro b c h1 h2
    cases b with
    | nil => simp [charListLe] at h1
    | cons y ys =>
      cases c with
      | nil => simp [charListLe] at h2
      | cons z zs =>
        simp only [charListLe] at h1 h2 ⊢
        by_cases hxy : x.toNat < y.toNat
        · simp only [hxy, if_true] at h1
          by_cases hyz : y.toNat < z.toNat
          · simp [show x.toNat < z.toNat by omega]
          · by_cases hzy : z.toNat < y.toNat
            · simp [hyz, hzy] at h2
            · simp [show x.toNat < z.toNat by omega]
        · by_cases hyx : y.toNat < x.toNat
          · simp [hxy, hyx] at h1
          · have hxy' : x.toNat = y.toNat := by omega
            simp only [hxy, hyx, if_false] at h1
            by_cases hyz : y.toNat < z.toNat
            · simp [show x.toNat < z.toNat by omega]
            · by_cases hzy : z.toNat < y.toNat
              · simp [hyz, hzy] at h2
              · have hxz : ¬x.toNat < z.toNat := by omega
                have hzx : ¬z.toNat < x.toNat := by omega
                simp only [hyz, hzy, if_false] at h2
                simp only [hxz, hzx, if_false]
                exact ih ys zs h1 h2

instance : IsRefl String strLe :=
  ⟨fun a => charListLe_refl a.data⟩

instance : IsTotal String strLe :=
  ⟨fun a b => charListLe_total a.data b.data⟩

instance : IsTrans String strLe :=
  ⟨fun a b c h1 h2 => charListLe_trans a.data b.data c.data h1 h2⟩

instance : IsAntisymm String strLe := by
  refine ⟨fun a b h1 h2 => ?_⟩
  have hd := charListLe_antisymm a.data b.data h1 h2
  have : String.mk a.data = String.mk b.data := congrArg String.mk hd
  exact this

theorem goSortStrings_eq_of_perm {l1 l2 : List String} (h : l1.Perm l2) :
    goSortStrings l1 = goSortStrings l2 := by
  refine @List.eq_of_perm_of_sorted String strLe _ _ _ ?_ ?_ ?_
  · exact (List.perm_insertionSort strLe l1).trans
      (h.trans (List.perm_insertionSort strLe l2).symm)
  · exact List.sorted_insertionSort strLe l1
  · exact List.sorted_insertionSort strLe l2

theorem finalOutput_eq_of_perm (resolve : Bool) (http : String → HTTPEvent)
    {o1 o2 : List String} (h : o1.Perm o2) :
    finalOutput resolve http o1 = finalOutput resolve http o2 :=
  goSortStrings_eq_of_perm (aggregateFrom_perm resolve http h)

/-! ## Lemmas about line trimming and input selection -/

theorem head?_dropWhile (p : Char → Bool) :
    ∀ (l : List Char) (c : Char), (l.dropWhile p).head? = some c → p c = false := by
  intro l
  induction l with
  | nil => intro c h; cases h
  | cons a as ih =>
    intro c h
    by_cases ha : p a
    · rw [List.dropWhile_cons, if_pos ha] at h
      exact ih c h
    · rw [List.dropWhile_cons, if_neg ha] at h
      simp only [List.head?_cons, Option.some.injEq] at h
      subst h
      simpa using ha

theorem dropTrailingSpaces_head :
    ∀ (m : List Char) (c : Char),
      (dropTrailingSpaces m).head? = some c → m.head? = some c := by
  intro m c h
  cases m with
  | nil => cases h
  | cons a as =>
    simp only [dropTrailingSpaces] at h
    by_cases hcase : (dropTrailingSpaces as).isEmpty && isGoSpace a
    · rw [if_pos hcase] at h
      cases h
    · rw [if_neg hcase] at h
      simp only [List.head?_cons, Option.some.injEq] at h
      subst h
      rfl

theorem dropTrailingSpaces_getLast :
    ∀ (m : List Char) (c : Char),
      (dropTrailingSpaces m).getLast? = some c → isGoSpace c = false := by
  intro m
  induction m with
  | nil => intro c h; cases h
  | cons a as ih =>
    intro c h
    simp only [dropTrailingSpaces] at h
    by_cases hcase : (dropTrailingSpaces as).isEmpty && isGoSpace a
    · rw [if_pos hcase] at h
      cases h
    · rw [if_neg hcase] at h
      cases hr : dropTrailingSpaces as with
      | nil =>
        rw [hr] at h
        simp only [List.getLast?_singleton, Option.some.injEq] at h
        subst h
        rw [hr] at hcase
        simpa using hcase
      | cons b bs =>
        rw [hr, List.getLast?_cons_cons] at h
        apply ih
        rw [hr]
        exact h

theorem trimList_head (l : List Char) (c : Char)
    (h : (trimList l).head? = some c) : isGoSpace c = false := by
  rw [trimList] at h
  exact head?_dropWhile isGoSpace l c (dropTrailingSpaces_head _ c h)

theorem trimList_getLast (l : List Char) (c : Char)
    (h : (trimList l).getLast? = some c) : isGoSpace c = false :=
  dropTrailingSpaces_getLast _ c h

theorem cleanLines_mem {ls : List String} {s : String} (h : s ∈ cleanLines ls) :
    s ≠ "" ∧ ∃ l ∈ ls, s = trimString l := by
  obtain ⟨l, hl, hf⟩ := List.mem_filterMap.mp h
  dsimp only at hf
  by_cases ht : trimString l = ""
  · rw [if_pos ht] at hf
    cases hf
  · rw [if_neg ht] at hf
    injection hf with hf
    subst hf
    exact ⟨ht, l, hl, rfl⟩

theorem cleanLines_mem_of (ls : List String) (l : String) (hl : l ∈ ls)
    (ht : trimString l ≠ "") : trimString l ∈ cleanLines ls := by
  apply List.mem_filterMap.mpr
  exact ⟨l, hl, by simp [ht]⟩

/-! ## Lemmas about URL reference resolution -/

theorem resolveReference_absolute (u ref : GoURL) (h : ref.scheme ≠ []) :
    resolveReference u ref = { ref with path := resolvePath ref.path [] } := by
  have hb : ref.scheme.isEmpty = false := by
    cases hs : ref.scheme.isEmpty
    · rfl
    · exact absurd (List.isEmpty_iff.mp hs) h
  simp [resolveReference, hb]

theorem resolveReference_absolute_id (u ref : GoURL) (h : ref.scheme ≠ [])
    (hp : resolvePath ref.path [] = ref.path) : resolveReference u ref = ref := by
  rw [resolveReference_absolute u ref h, hp]

/-! ## The claims -/

/-- C1: for every input URL list (duplicates included) and every worker
count `T ≥ 1`, every reachable pipeline state carries exactly the input
jobs (one pending/in-flight/sent/consumed result per input URL, as a
permutation); in every drained state the consuming loop has received
exactly `len(urls)` results, one per input URL; and for `T ≥ 1` a
complete drained execution exists. -/
theorem pipeline_one_result_per_url (urls : List String) (T : Nat) (hT : 1 ≤ T) :
    (∀ s, PoolReachable urls T s → (poolContents s).Perm urls) ∧
    (∀ s, PoolReachable urls T s → PoolDone s →
      s.consumed.Perm urls ∧ s.consumed.length = urls.length) ∧
    (∃ s, PoolReachable urls T s ∧ PoolDone s ∧ s.consumed = urls) := by
  refine ⟨?_, ?_, pool_complete_exists urls T hT⟩
  · intro s hs
    exact poolReachable_contents hs
  · intro s hs hd
    have hp := poolDone_consumed_perm hs hd
    exact ⟨hp, hp.length_eq⟩

theorem pipeline_one_result_per_url_witness :
    (1 : Nat) ≤ 2 ∧
      ∃ s, PoolReachable ["u", "u"] 2 s ∧ PoolDone s ∧ s.consumed = ["u", "u"] :=
  ⟨by decide, (pipeline_one_result_per_url ["u", "u"] 2 (by decide)).2.2⟩

/-- C2: the accumulator (`allFoundEndpoints` under
`finalEndpointsLock`; the whole check-then-insert-then-notify block of
`main.go` lines 203–210 runs under the mutex, so it is modelled as the
single atomic step `insertEndpoint`): duplicate insertion is a no-op;
for any sequence of insertions (any interleaving of results from any
mix of source URLs) the final key set holds each unique endpoint
exactly once (`Nodup` plus membership iff it was ever inserted), and
the "new endpoint" notification list equals the key set, so each unique
endpoint is notified at most once. -/
theorem endpointSet_idempotent_unique_notify :
    (∀ (st : AggState) (e : String), e ∈ st.keys → insertEndpoint st e = st) ∧
    (∀ es : List String,
      (insertAll ⟨[], []⟩ es).keys.Nodup ∧
      (∀ x, x ∈ (insertAll ⟨[], []⟩ es).keys ↔ x ∈ es) ∧
      (insertAll ⟨[], []⟩ es).notified = (insertAll ⟨[], []⟩ es).keys ∧
      (∀ e, (insertAll ⟨[], []⟩ es).notified.count e ≤ 1)) := by
  constructor
  · intro st e h
    exact insertEndpoint_dup_noop h
  · intro es
    have hnd := insertAll_nodup es (show (⟨[], []⟩ : AggState).keys.Nodup from List.nodup_nil)
    have hne := insertAll_notified_eq es
      (show (⟨[], []⟩ : AggState).notified = (⟨[], []⟩ : AggState).keys from rfl)
    refine ⟨hnd, ?_, hne, ?_⟩
    · intro x
      rw [insertAll_mem]
      simp
    · intro e
      rw [hne]
      exact List.nodup_iff_count_le_one.mp hnd e

theorem endpointSet_idempotent_unique_notify_witness :
    insertEndpoint ⟨["/a"], ["/a"]⟩ "/a" = ⟨["/a"], ["/a"]⟩ ∧
      (insertAll ⟨[], []⟩ ["/a", "/b", "/a"]).keys.Nodup ∧
      (insertAll ⟨[], []⟩ ["/a", "/b", "/a"]).keys = ["/a", "/b"] := by
  refine ⟨endpointSet_idempotent_unique_notify.1 ⟨["/a"], ["/a"]⟩ "/a" (by decide),
    (endpointSet_idempotent_unique_notify.2 ["/a", "/b", "/a"]).1, by decide⟩

/-- C3: for every body, `extract` returns the path captures in the
order they occur in the body (`scanPositions` pairs each capture with a
strictly increasing start index at which the capture literally occurs
in the body, and projecting the captures gives `extract`), and every
returned string starts with `/` and contains neither `"` nor `'`. -/
theorem extract_ordered_slash_no_quotes (body : List Char) :
    (∀ cap ∈ extract body, cap.head? = some '/' ∧
      ∀ ch ∈ cap, ch ≠ '"' ∧ ch ≠ squoteChar) ∧
    (scanPositions body).map Prod.snd = extract body ∧
    List.Chain' (fun a b : Nat × List Char => a.1 < b.1) (scanPositions body) ∧
    (∀ p ∈ scanPositions body, (body.drop p.1).take p.2.length = p.2) := by
  refine ⟨?_, scanPosFuel_map_snd body.length 0 body,
    scanPosFuel_chain body.length 0 body, ?_⟩
  · intro cap hcap
    have h := scanFuel_clean body.length body cap hcap
    refine ⟨h.1, ?_⟩
    intro ch hch
    have hq := h.2 ch hch
    constructor
    · intro he
      subst he
      exact absurd hq (by decide)
    · intro he
      subst he
      exact absurd hq (by decide)
  · intro p hp
    have := (scanPosFuel_occurs body.length 0 body p hp).2
    simpa using this

theorem extract_ordered_slash_no_quotes_witness :
    ("/api/v1/users?id=1".data.head? = some '/') ∧
      ∀ ch ∈ ("/api/v1/users?id=1" : String).data, ch ≠ '"' ∧ ch ≠ squoteChar :=
  (extract_ordered_slash_no_quotes
    ("<script src=\"/api/v1/users?id=1\"></script>" : String).data).1
    ("/api/v1/users?id=1" : String).data (by decide)

/-- C4 (counterexample): the code's pattern has no backreference, so a
path opened by `"` and closed by `'` is matched: on the body `"/a'` the
extractor returns `/a` even though the two delimiting quotes differ,
refuting "the closing quote must equal the opening quote". -/
theorem endpointRegex_mismatched_quotes_cex :
    extract ('"' :: '/' :: 'a' :: [squoteChar]) = [['/', 'a']] ∧
      ('"' : Char) ≠ squoteChar := by
  constructor
  · decide
  · decide

/-- C4 (amended): the extraction pattern matches exactly the substrings
made of a quote character, then a path starting with `/` over the class
`[a-zA-Z0-9_?%&=/\-#.()]` as case-folded by `(?i)` (which adds U+212A
KELVIN SIGN and U+017F LONG S), then a quote character — where each
delimiting quote is independently `"` or `'` and need not equal the
other. -/
theorem endpointRegex_any_quote_delimiters :
    ∀ (l cap tail : List Char),
      tryMatch l = some (cap, tail) ↔
        ∃ q run c2, isQuoteChar q = true ∧ isQuoteChar c2 = true ∧ run ≠ [] ∧
          (∀ ch ∈ run, isPathChar ch = true) ∧ cap = '/' :: run ∧
          l = q :: '/' :: (run ++ c2 :: tail) := by
  intro l cap tail
  constructor
  · exact tryMatch_eq_some
  · rintro ⟨q, run, c2, hq, hc, hr, hall, hcap, hl⟩
    subst hcap
    subst hl
    exact tryMatch_of_parts hq hc hr hall

theorem endpointRegex_any_quote_delimiters_witness :
    tryMatch ('"' :: '/' :: 'a' :: [squoteChar]) = some (['/', 'a'], []) ∧
      tryMatch ('"' :: '/' :: Char.ofNat 0x212A :: ['"']) =
        some (['/', Char.ofNat 0x212A], []) :=
  ⟨(endpointRegex_any_quote_delimiters ('"' :: '/' :: 'a' :: [squoteChar]) ['/', 'a'] []).mpr
      ⟨'"', ['a'], squoteChar, by decide, by decide, by decide, by decide, rfl, rfl⟩,
    (endpointRegex_any_quote_delimiters ('"' :: '/' :: Char.ofNat 0x212A :: ['"'])
        ['/', Char.ofNat 0x212A] []).mpr
      ⟨'"', [Char.ofNat 0x212A], '"', by decide, by decide, by decide, by decide, rfl, rfl⟩⟩

/-- C5 (counterexample): with `-u u` and an `-o` path that cannot be
created, the run executes a fetch job and only then exits with status 1
— the `OutputFileError` fatal exit does not happen before the
pipeline starts, refuting the claim. -/
theorem outputFileError_after_fetch_cex :
    runTrace ⟨"u", "", "o", 1, false, false, false⟩
        ⟨fun _ => none, false, [], fun _ => HTTPEvent.resp 200 true [], fun _ => false⟩ =
      [Event.fetchJob "u", Event.exitProc 1] ∧
    exitsNonzero (runTrace ⟨"u", "", "o", 1, false, false, false⟩
        ⟨fun _ => none, false, [], fun _ => HTTPEvent.resp 200 true [], fun _ => false⟩) ∧
    hasFetchEvent (runTrace ⟨"u", "", "o", 1, false, false, false⟩
        ⟨fun _ => none, false, [], fun _ => HTTPEvent.resp 200 true [], fun _ => false⟩) := by
  have h : runTrace ⟨"u", "", "o", 1, false, false, false⟩
      ⟨fun _ => none, false, [], fun _ => HTTPEvent.resp 200 true [], fun _ => false⟩ =
      [Event.fetchJob "u", Event.exitProc 1] := by decide
  refine ⟨h, ⟨1, by decide, ?_⟩, ⟨"u", ?_⟩⟩
  · rw [h]
    decide
  · rw [h]
    decide

/-- C5 (amended): the two input-phase fatal errors (the `-l` file
cannot be opened; no input) terminate with status 1 before any fetch
job; the `OutputFileError` also terminates with status 1 but only after
every fetch job has run, because the output file is created after the
scan. -/
theorem fatal_exit_phases :
    (∀ (cfg : Config) (env : Env), selectURLs cfg env = none →
      runTrace cfg env = [Event.exitProc 1]) ∧
    (∀ (cfg : Config) (env : Env), selectURLs cfg env = some [] →
      runTrace cfg env = [Event.exitProc 1]) ∧
    (∀ (cfg : Config) (env : Env) (urls : List String),
      selectURLs cfg env = some urls → urls ≠ [] → cfg.outputFile ≠ "" →
      env.canCreate cfg.outputFile = false →
      runTrace cfg env = urls.map Event.fetchJob ++ [Event.exitProc 1]) := by
  refine ⟨?_, ?_, ?_⟩
  · intro cfg env h
    rw [runTrace, h]
  · intro cfg env h
    rw [runTrace, h]
    rfl
  · intro cfg env urls hsel hne ho hc
    rw [runTrace, hsel]
    have h1 : urls.isEmpty = false := by
      cases urls with
      | nil => exact absurd rfl hne
      | cons a as => rfl
    have h2 : cfg.outputFile ≠ "" ∧ ¬env.canCreate cfg.outputFile = true :=
      ⟨ho, by simp [hc]⟩
    simp [h1, h2]

theorem fatal_exit_phases_witness :
    runTrace ⟨"", "f", "", 1, false, false, false⟩
        ⟨fun _ => none, false, [], fun _ => HTTPEvent.reqFail, fun _ => true⟩ =
      [Event.exitProc 1] :=
  fatal_exit_phases.1 ⟨"", "f", "", 1, false, false, false⟩
    ⟨fun _ => none, false, [], fun _ => HTTPEvent.reqFail, fun _ => true⟩ (by decide)

/-- C6: the final sorted unique endpoint list is the same for any two
complete pipeline executions over the same inputs, whatever the worker
counts and whatever order the per-URL results reached the consuming
loop, and equals the canonical output computed from the input order. -/
theorem finalOutput_deterministic (resolve : Bool) (http : String → HTTPEvent)
    (urls : List String) (T1 T2 : Nat) (s1 s2 : PoolState)
    (h1 : PoolReachable urls T1 s1) (hd1 : PoolDone s1)
    (h2 : PoolReachable urls T2 s2) (hd2 : PoolDone s2) :
    finalOutput resolve http s1.consumed = finalOutput resolve http s2.consumed ∧
    finalOutput resolve http s1.consumed = finalOutput resolve http urls := by
  have p1 := poolDone_consumed_perm h1 hd1
  have p2 := poolDone_consumed_perm h2 hd2
  exact ⟨finalOutput_eq_of_perm resolve http (p1.trans p2.symm),
    finalOutput_eq_of_perm resolve http p1⟩

theorem finalOutput_deterministic_witness :
    finalOutput false (fun _ => HTTPEvent.resp 404 true [])
        (PoolState.consumed ⟨[], List.replicate 1 none, [], ["u"]⟩) =
      finalOutput false (fun _ => HTTPEvent.resp 404 true []) ["u"] := by
  have hr : PoolReachable ["u"] 1 ⟨[], List.replicate 1 none, [], ["u"]⟩ := by
    have := pool_exec_complete 0 ["u"] []
    simpa [PoolReachable, initPool] using this
  have hd : PoolDone ⟨[], List.replicate 1 none, [], ["u"]⟩ := by
    refine ⟨rfl, ?_, rfl⟩
    simp [PoolState.inFlight]
  exact (finalOutput_deterministic false (fun _ => HTTPEvent.resp 404 true [])
    ["u"] 1 1 _ _ hr hd hr hd).2

/-- C7: a non-200 response is classified as the distinct `badStatus`
error; such a result contributes zero endpoints to the set; results of
other URLs do not depend on this URL's HTTP outcome; and whenever the
input phase succeeded and the output file (if any) can be created, the
run still ends with exit status 0 regardless of the fetch outcomes. -/
theorem non200_isolated_nonfatal (status : Nat) (bodyOk : Bool) (body : List Char)
    (h200 : status ≠ 200) :
    fetchAndFindLinks (HTTPEvent.resp status bodyOk body) =
      Except.error (FetchError.badStatus status) ∧
    (∀ (resolve : Bool) (u : String),
      endpointsOfEvent resolve u (HTTPEvent.resp status bodyOk body) = []) ∧
    (∀ (resolve : Bool) (http http' : String → HTTPEvent) (uBad v : String),
      (∀ w, w ≠ uBad → http w = http' w) → v ≠ uBad →
      endpointsOfResult resolve http v = endpointsOfResult resolve http' v) ∧
    (∀ (cfg : Config) (env : Env) (urls : List String),
      selectURLs cfg env = some urls → urls ≠ [] →
      (cfg.outputFile = "" ∨ env.canCreate cfg.outputFile = true) →
      runTrace cfg env = urls.map Event.fetchJob ++ [Event.exitProc 0]) := by
  have hfetch : fetchAndFindLinks (HTTPEvent.resp status bodyOk body) =
      Except.error (FetchError.badStatus status) := by
    simp [fetchAndFindLinks, h200]
  refine ⟨hfetch, ?_, ?_, ?_⟩
  · intro resolve u
    simp [endpointsOfEvent, hfetch]
  · intro resolve http http' uBad v hagree hv
    rw [endpointsOfResult, endpointsOfResult, hagree v hv]
  · intro cfg env urls hsel hne hout
    rw [runTrace, hsel]
    have h1 : urls.isEmpty = false := by
      cases urls with
      | nil => exact absurd rfl hne
      | cons a as => rfl
    have h2 : ¬(cfg.outputFile ≠ "" ∧ ¬env.canCreate cfg.outputFile = true) := by
      rintro ⟨hc1, hc2⟩
      rcases hout with h | h
      · exact hc1 h
      · exact hc2 h
    simp only [h1, Bool.false_eq_true, if_false]
    rw [if_neg h2]

theorem non200_isolated_nonfatal_witness :
    (404 : Nat) ≠ 200 ∧
    fetchAndFindLinks (HTTPEvent.resp 404 true []) =
      Except.error (FetchError.badStatus 404) ∧
    endpointsOfEvent false "u" (HTTPEvent.resp 404 true []) = [] ∧
    runTrace ⟨"u", "", "", 1, false, false, false⟩
        ⟨fun _ => none, false, [], fun _ => HTTPEvent.resp 404 true [], fun _ => true⟩ =
      [Event.fetchJob "u", Event.exitProc 0] := by
  have h := non200_isolated_nonfatal 404 true [] (by decide)
  refine ⟨by decide, h.1, h.2.1 false "u", ?_⟩
  have := h.2.2.2 ⟨"u", "", "", 1, false, false, false⟩
    ⟨fun _ => none, false, [], fun _ => HTTPEvent.resp 404 true [], fun _ => true⟩
    ["u"] (by decide) (by decide) (Or.inl rfl)
  simpa using this

/-- C8: with `-r` set, when the extracted endpoint fails to parse as a
URL reference, or the source URL fails to parse as a base, the raw
unresolved extracted string is inserted instead (the fallback is total;
no error is raised). -/
theorem resolve_fallback_raw (source link : String)
    (h : parseURL link.data = none ∨ parseURL source.data = none) :
    finalLinkOf true source link = link := by
  rw [finalLinkOf, if_pos rfl]
  rcases h with h | h
  · cases hs : parseURL source.data with
    | none => rfl
    | some b =>
      rw [h]
  · rw [h]

theorem resolve_fallback_raw_witness :
    parseURL ("/a%zz" : String).data = none ∧
      finalLinkOf true "https://example.com" "/a%zz" = "/a%zz" :=
  ⟨by decide, resolve_fallback_raw "https://example.com" "/a%zz" (Or.inl (by decide))⟩

/-- C9 (counterexample): resolution is not the identity on absolute
endpoints: dot segments are removed (`http://a/b/../c` resolves to
`http://a/c`) and parsing lowercases the scheme (`HTTP://a/c` resolves
to `http://a/c`), so the result can differ from the absolute input. -/
theorem resolve_absolute_not_identity_cex :
    parseURL ("http://a/b/../c" : String).data =
      some ⟨"http".data, [], "a".data, false, "/b/../c".data, [], []⟩ ∧
    finalLinkOf true "http://example.com" "http://a/b/../c" = "http://a/c" ∧
    ("http://a/c" : String) ≠ "http://a/b/../c" ∧
    finalLinkOf true "http://example.com" "HTTP://a/c" = "http://a/c" ∧
    ("http://a/c" : String) ≠ "HTTP://a/c" :=
  ⟨by decide, by decide, by decide, by decide, by decide⟩

/-- C9 (amended): resolving an absolute reference against any base
keeps every component of the reference and only normalizes its path by
dot-segment removal; hence an absolute endpoint string that parses,
whose path is dot-segment free, and that re-serializes to itself
(canonical form) passes through the resolution step unchanged, for
every parseable base URL. -/
theorem resolve_absolute_normalizes :
    (∀ (u ref : GoURL), ref.scheme ≠ [] →
      resolveReference u ref = { ref with path := resolvePath ref.path [] }) ∧
    (∀ (B E : String) (b r : GoURL),
      parseURL B.data = some b → parseURL E.data = some r → r.scheme ≠ [] →
      resolvePath r.path [] = r.path → urlToString r = E.data →
      finalLinkOf true B E = E) := by
  constructor
  · exact resolveReference_absolute
  · intro B E b r hB hE hscheme hpath hser
    rw [finalLinkOf, if_pos rfl, hB, hE]
    dsimp only
    rw [resolveReference_absolute_id b r hscheme hpath, hser]

theorem resolve_absolute_normalizes_witness :
    finalLinkOf true "http://example.com" "http://a/c" = "http://a/c" :=
  resolve_absolute_normalizes.2 "http://example.com" "http://a/c"
    ⟨"http".data, [], "example.com".data, false, [], [], []⟩
    ⟨"http".data, [], "a".data, false, "/c".data, [], []⟩
    (by decide) (by decide) (by decide) (by decide) (by decide)

/-- C10: input-source selection is exclusive with fixed precedence — a
non-empty `-u` yields exactly that single URL whatever the `-l` file or
stdin contain; with `-u` empty and `-l` non-empty the result depends
only on the file (shape: open failure is fatal, otherwise the cleaned
lines), stdin ignored; stdin is read only when both are empty; and the
cleaned lines are exactly the whitespace-trimmed nonempty lines, so
surviving URLs are nonempty and carry no leading or trailing
whitespace. -/
theorem input_selection_precedence_trim :
    (∀ (cfg : Config) (env : Env), cfg.targetURL ≠ "" →
      selectURLs cfg env = some [cfg.targetURL]) ∧
    (∀ (cfg : Config) (env env' : Env), cfg.targetURL = "" → cfg.urlList ≠ "" →
      env.fileLines cfg.urlList = env'.fileLines cfg.urlList →
      selectURLs cfg env = selectURLs cfg env') ∧
    (∀ (cfg : Config) (env : Env) (ls : List String), cfg.targetURL = "" →
      cfg.urlList ≠ "" → env.fileLines cfg.urlList = some ls →
      selectURLs cfg env = some (cleanLines ls)) ∧
    (∀ (cfg : Config) (env : Env), cfg.targetURL = "" → cfg.urlList = "" →
      selectURLs cfg env =
        (if env.stdinPiped then some (cleanLines env.stdinLines) else some [])) ∧
    (∀ (ls : List String) (s : String), s ∈ cleanLines ls →
      s ≠ "" ∧ (∀ c, s.data.head? = some c → isGoSpace c = false) ∧
      (∀ c, s.data.getLast? = some c → isGoSpace c = false)) ∧
    (∀ (ls : List String) (l : String), l ∈ ls → trimString l ≠ "" →
      trimString l ∈ cleanLines ls) := by
  refine ⟨?_, ?_, ?_, ?_, ?_, cleanLines_mem_of⟩
  · intro cfg env h
    rw [selectURLs, if_pos h]
  · intro cfg env env' h1 h2 hfile
    have e1 : selectURLs cfg env =
        (match env.fileLines cfg.urlList with
          | none => none
          | some ls => some (cleanLines ls)) := by
      rw [selectURLs, if_neg (by simp [h1]), if_pos h2]
    have e2 : selectURLs cfg env' =
        (match env'.fileLines cfg.urlList with
          | none => none
          | some ls => some (cleanLines ls)) := by
      rw [selectURLs, if_neg (by simp [h1]), if_pos h2]
    rw [e1, e2, hfile]
  · intro cfg env ls h1 h2 hfile
    rw [selectURLs, if_neg (by simp [h1]), if_pos h2, hfile]
  · intro cfg env h1 h2
    rw [selectURLs, if_neg (by simp [h1]), if_neg (by simp [h2])]
  · intro ls s hs
    obtain ⟨hne, l, _, heq⟩ := cleanLines_mem hs
    subst heq
    exact ⟨hne, fun c hc => trimList_head l.data c hc,
      fun c hc => trimList_getLast l.data c hc⟩

theorem input_selection_precedence_trim_witness :
    selectURLs ⟨"u", "f", "", 1, false, false, false⟩
        ⟨fun _ => some ["x"], true, ["y"], fun _ => HTTPEvent.reqFail, fun _ => true⟩ =
      some ["u"] ∧
    (("a" : String) ≠ "" ∧
      (∀ c, ("a" : String).data.head? = some c → isGoSpace c = false) ∧
      (∀ c, ("a" : String).data.getLast? = some c → isGoSpace c = false)) := by
  constructor
  · exact input_selection_precedence_trim.1 ⟨"u", "f", "", 1, false, false, false⟩
      ⟨fun _ => some ["x"], true, ["y"], fun _ => HTTPEvent.reqFail, fun _ => true⟩ (by decide)
  · exact input_selection_precedence_trim.2.2.2.2.1 ["  a "] "a" (by decide)
